import Mathlib

/-!
Verification of the data-cleaning and statistical-feature pipeline of
`analysis.py` (Airbnb NYC 2019 exploratory analysis).

The pipeline operates on a pandas DataFrame.  We embed the fragment the
pipeline uses shallowly:

* a cell of a numeric column is a `PVal`: either an exact rational or the
  floating-point missing value NaN (`PVal.nan`); comparisons against NaN are
  always false and arithmetic with NaN propagates NaN, as for IEEE floats;
* a `Record` is one row, restricted to the columns the pipeline reads;
* a `DataFrame` is the ordered list of rows plus the two derived columns
  (`price_zscore`, `price_bin`) which are absent (`none`) until
  `normalize_and_discretize` assigns them;
* quantiles use the linear-interpolation estimator (numpy/pandas default),
  computed on the non-missing values.

Real-valued quantities that involve a square root (the standard deviation
used by the z-score) are handled by passing the standard deviation as an
explicit real parameter constrained by `IsPopStd`.
-/

/-- A pandas numeric cell: an exact rational, or the missing value NaN. -/
inductive PVal where
  | nan : PVal
  | num : ℚ → PVal
deriving DecidableEq, Repr

/-- Float comparison `a <= b`: false whenever either side is NaN. -/
def PVal.le : PVal → PVal → Bool
  | PVal.num a, PVal.num b => decide (a ≤ b)
  | _, _ => false

/-- Float subtraction; NaN propagates. -/
def PVal.sub : PVal → PVal → PVal
  | PVal.num a, PVal.num b => PVal.num (a - b)
  | _, _ => PVal.nan

/-- Float addition; NaN propagates. -/
def PVal.add : PVal → PVal → PVal
  | PVal.num a, PVal.num b => PVal.num (a + b)
  | _, _ => PVal.nan

/-- Scaling by a (non-NaN) constant; NaN propagates. -/
def PVal.smul (c : ℚ) : PVal → PVal
  | PVal.num a => PVal.num (c * a)
  | PVal.nan => PVal.nan

/-- Model of `Series.fillna z`: replace NaN by `z`, keep other values. -/
def PVal.fillna (z : ℚ) : PVal → PVal
  | PVal.nan => PVal.num z
  | PVal.num a => PVal.num a

/-- One row of the table, restricted to the columns `analysis.py` touches.
`neighbourhood_group` and `room_type` are categorical (missing = `none`);
`last_review` is carried as the raw text cell (missing = `none`). -/
structure Record where
  price : PVal
  neighbourhood_group : Option String
  room_type : Option String
  reviews_per_month : PVal
  last_review : Option String
deriving DecidableEq, Repr

/-- The tertile label assigned by `pd.qcut(..., labels=['low','medium','high'])`. -/
inductive Bin where
  | low : Bin
  | medium : Bin
  | high : Bin
deriving DecidableEq, Repr

/-- Rank of a bin label, for stating that labels ascend with price. -/
def Bin.idx : Bin → ℕ
  | Bin.low => 0
  | Bin.medium => 1
  | Bin.high => 2

/-- A real-valued cell of the derived z-score column (NaN and the two
infinities can arise from float division by a zero standard deviation). -/
inductive RVal where
  | nan : RVal
  | inf : RVal
  | ninf : RVal
  | num : ℝ → RVal

/-- The DataFrame as the pipeline sees it: the base rows, and the two derived
columns, absent until `normalize_and_discretize` assigns them.  A derived
column is a list aligned with `rows`. -/
structure DataFrame where
  rows : List Record
  price_zscore : Option (List RVal) := none
  price_bin : Option (List (Option Bin)) := none

/-- The non-missing values of a numeric column, in row order (pandas skips
NaN when computing quantiles, means and standard deviations). -/
def dropNan (l : List PVal) : List ℚ :=
  l.filterMap (fun v => match v with | PVal.num q => some q | PVal.nan => none)

/-- Ascending sort of a numeric column. -/
def sortQ (l : List ℚ) : List ℚ := List.insertionSort (fun a b => a ≤ b) l

/-- Linear-interpolation quantile estimator on an ascending list
(the numpy/pandas default `interpolation='linear'`): the quantile `q` sits at
fractional position `q * (n-1)` between the order statistics. -/
def quantileSorted (s : List ℚ) (q : ℚ) : ℚ :=
  let pos : ℚ := q * ((s.length : ℚ) - 1)
  let i : ℕ := pos.num.toNat / pos.den
  let frac : ℚ := pos - (i : ℚ)
  let a := s.getD i 0
  let b := s.getD (i + 1) a
  a + frac * (b - a)

/-- Model of `Series.quantile q`: drop NaN, sort, interpolate; NaN on an all-missing
or empty column. -/
def seriesQuantile (l : List PVal) (q : ℚ) : PVal :=
  let s := dropNan l
  if s.isEmpty then PVal.nan else PVal.num (quantileSorted (sortQ s) q)

/-- The pair `(Q1 - 1.5*IQR, Q3 + 1.5*IQR)` computed by
`remove_price_outliers` from the pre-filter price column. -/
def outlierBounds (prices : List PVal) : PVal × PVal :=
  let q1 := seriesQuantile prices (1/4)
  let q3 := seriesQuantile prices (3/4)
  let iqr := PVal.sub q3 q1
  (PVal.sub q1 (PVal.smul (3/2) iqr), PVal.add q3 (PVal.smul (3/2) iqr))

/-- The row predicate `(df[price] >= lower) & (df[price] <= upper)`. -/
def priceInBounds (lb ub : PVal) (r : Record) : Bool :=
  PVal.le lb r.price && PVal.le r.price ub

/-- Restrict a column to the rows a boolean mask keeps. -/
def maskFilter {α : Type} : List Bool → List α → List α
  | b :: m, x :: xs => if b then x :: maskFilter m xs else maskFilter m xs
  | _, _ => []

/-- Model of `remove_price_outliers`: Q1/Q3/IQR of the price column, then boolean-mask
filtering of every column with both bounds inclusive (`>=`/`<=`), followed by
`.copy()`.  Bounds come from the pre-filter data, once. -/
def remove_price_outliers (df : DataFrame) : DataFrame :=
  let prices := df.rows.map Record.price
  let lb := (outlierBounds prices).1
  let ub := (outlierBounds prices).2
  let m := df.rows.map (priceInBounds lb ub)
  { rows := maskFilter m df.rows,
    price_zscore := df.price_zscore.map (maskFilter m),
    price_bin := df.price_bin.map (maskFilter m) }

/-- The cleaning steps of `load_data` after `pd.read_csv`:
`pd.to_datetime(..., errors='coerce')` on `last_review` (the parser is the
caller-supplied `p`; an unparseable or missing cell becomes `none` = NaT),
`fillna(0)` on `reviews_per_month`, and `dropna` on the rows whose
`neighbourhood_group` or `room_type` is missing. -/
def load_data_clean (p : String → Option String) (raw : List Record) : List Record :=
  let step1 := raw.map (fun r => { r with last_review := r.last_review.bind p })
  let step2 := step1.map
    (fun r => { r with reviews_per_month := PVal.fillna 0 r.reviews_per_month })
  step2.filter (fun r => r.neighbourhood_group.isSome && r.room_type.isSome)

/-- Mean of a list of exact values (`Series.mean` after dropping NaN). -/
def meanQ (l : List ℚ) : ℚ := l.sum / (l.length : ℚ)

/-- Square. -/
def sqQ (x : ℚ) : ℚ := x * x

/-- Sum of squared deviations from the mean. -/
def ssQ (l : List ℚ) : ℚ := (l.map (fun x => sqQ (x - meanQ l))).sum

/-- Population variance, `ddof=0` (divisor N): the variance underlying
`df[price_col].std(ddof=0)` in `normalize_and_discretize`. -/
def popVarQ (l : List ℚ) : ℚ := ssQ l / (l.length : ℚ)

/-- Sample variance, `ddof=1` (divisor N-1): the variance underlying the
`std` row of `DataFrame.describe()` in `descriptive_statistics`. -/
def sampleVarQ (l : List ℚ) : ℚ := ssQ l / ((l.length : ℚ) - 1)

/-- States that `σ` is the population (`ddof=0`) standard deviation of `l`: the
nonnegative real square root of `popVarQ l`. -/
def IsPopStd (l : List ℚ) (σ : ℝ) : Prop := 0 ≤ σ ∧ σ ^ 2 = (popVarQ l : ℝ)

/-- States that `σ` is the sample (`ddof=1`) standard deviation of `l`. -/
def IsSampleStd (l : List ℚ) (σ : ℝ) : Prop := 0 ≤ σ ∧ σ ^ 2 = (sampleVarQ l : ℝ)

/-- Mean of a list of reals. -/
noncomputable def meanR (l : List ℝ) : ℝ := l.sum / (l.length : ℝ)

/-- Population (`ddof=0`) variance of a list of reals. -/
noncomputable def popVarR (l : List ℝ) : ℝ :=
  (l.map (fun x => (x - meanR l) ^ 2)).sum / (l.length : ℝ)

/-- States that `σ` is the population standard deviation of the real list `l`. -/
def IsPopStdR (l : List ℝ) (σ : ℝ) : Prop := 0 ≤ σ ∧ σ ^ 2 = popVarR l

open Classical in
/-- IEEE float division, as numpy performs it when pandas evaluates
`(series - mean) / std`: ordinary division for a nonzero divisor, and
NaN / +inf / -inf when the divisor is zero. -/
noncomputable def fdiv (a b : ℝ) : RVal :=
  if b = 0 then (if a = 0 then RVal.nan else if 0 < a then RVal.inf else RVal.ninf)
  else RVal.num (a / b)

/-- The `price_zscore` column assigned by `normalize_and_discretize`:
`(df[price_col] - mean) / std`, elementwise over the price column, where
`mean` skips NaN and a NaN price yields a NaN z-score.  `σ` stands for the
value of `df[price_col].std(ddof=0)` (see `IsPopStd`). -/
noncomputable def zscoreCol (prices : List PVal) (σ : ℝ) : List RVal :=
  let μ : ℚ := meanQ (dropNan prices)
  prices.map (fun v => match v with
    | PVal.num x => fdiv ((x : ℝ) - (μ : ℝ)) σ
    | PVal.nan => RVal.nan)

/-- The ideal (exact-arithmetic) z-score list of a rational data list, for a
given standard-deviation value `σ`. -/
noncomputable def zscoreList (l : List ℚ) (σ : ℝ) : List ℝ :=
  l.map (fun v : ℚ => ((v : ℝ) - ((meanQ l : ℚ) : ℝ)) / σ)

/-- Errors the embedded pipeline can raise (each names the exception the
library code raises at that point). -/
inductive PyError where
  /-- `ValueError: Bin edges must be unique`, from `pd.qcut`. -/
  | binEdgesNotUnique : PyError
  /-- `TypeError: at least two inputs are required`, from `scipy.stats.f_oneway`. -/
  | atLeastTwoInputsRequired : PyError
deriving DecidableEq, Repr

/-- Is a list strictly ascending?  The 4 quantile edges of `qcut` are always
weakly ascending, so this is exactly pandas' "bin edges are unique" check. -/
def strictAsc : List ℚ → Bool
  | a :: b :: t => decide (a < b) && strictAsc (b :: t)
  | _ => true

/-- Label assignment of `pd.qcut` for interior values, given the two interior
edges: bins are right-closed, `(e0, e1], (e1, e2], (e2, e3]`, with the
minimum pulled into the first bin (`include_lowest`). -/
def binOf (e1 e2 : ℚ) (x : ℚ) : Bin :=
  if x ≤ e1 then Bin.low else if x ≤ e2 then Bin.medium else Bin.high

/-- Model of `pd.qcut(series, q=3, labels=['low','medium','high'])`: edges are the
0, 1/3, 2/3, 1 linear-interpolation quantiles of the non-missing values;
duplicate edges raise `ValueError`; otherwise each non-missing value gets the
label of its right-closed bin and a NaN stays unlabelled. -/
def qcut3 (prices : List PVal) : Except PyError (List (Option Bin)) :=
  let s := sortQ (dropNan prices)
  let e0 := quantileSorted s 0
  let e1 := quantileSorted s (1/3)
  let e2 := quantileSorted s (2/3)
  let e3 := quantileSorted s 1
  if strictAsc [e0, e1, e2, e3] then
    Except.ok (prices.map (fun v => match v with
      | PVal.num x => some (binOf e1 e2 x)
      | PVal.nan => none))
  else Except.error PyError.binEdgesNotUnique

/-- Model of `normalize_and_discretize`: assign the z-score column (never an error by
itself, NaN on a zero standard deviation) and then the `pd.qcut` tertile
column.  `σ` is the value of `df[price_col].std(ddof=0)`. -/
noncomputable def normalize_and_discretize (df : DataFrame) (σ : ℝ) :
    Except PyError DataFrame :=
  let prices := df.rows.map Record.price
  let z := zscoreCol prices σ
  match qcut3 prices with
  | Except.error e => Except.error e
  | Except.ok bins =>
      Except.ok { rows := df.rows, price_zscore := some z, price_bin := some bins }

/-- The `describe()` row of a numeric column: count, mean, std (sample,
`ddof=1`; recorded here by its square `stdSq`, the reported std being its
nonnegative square root), min, the three quartiles, max — all computed on the
non-missing values. -/
structure StatsRow where
  count : ℕ
  mean : ℚ
  stdSq : ℚ
  min : ℚ
  q25 : ℚ
  q50 : ℚ
  q75 : ℚ
  max : ℚ
deriving DecidableEq, Repr

/-- The `descriptive_statistics` table row for a numeric column. -/
def describeColumn (col : List PVal) : StatsRow :=
  let vals := dropNan col
  let s := sortQ vals
  { count := vals.length
    mean := meanQ vals
    stdSq := sampleVarQ vals
    min := s.getD 0 0
    q25 := quantileSorted s (1/4)
    q50 := quantileSorted s (1/2)
    q75 := quantileSorted s (3/4)
    max := s.getD (s.length - 1) 0 }

/-- Model of `df.groupby('neighbourhood_group')`: the distinct non-missing keys, in
sorted order (pandas sorts group keys and drops missing ones). -/
def groupKeysSorted (rows : List Record) : List String :=
  List.insertionSort (fun a b => a ≤ b) (rows.filterMap Record.neighbourhood_group).dedup

/-- The price values of one group, in row order (`group['price'].values`);
the embedding takes the group over the non-missing prices. -/
def groupPrices (rows : List Record) (g : String) : List ℚ :=
  dropNan ((rows.filter (fun r => r.neighbourhood_group == some g)).map Record.price)

/-- Model of the scipy helper `_sum_of_squares`: sum of the squared values. -/
def sumOfSq (l : List ℚ) : ℚ := (l.map sqQ).sum

/-- Model of the scipy helper `square_of_sums`: square of the total. -/
def sqOfSum (l : List ℚ) : ℚ := sqQ l.sum

/-- Model of the `f_oneway` local `alldata`: all samples concatenated and shifted by the
grand mean (scipy subtracts the mean for numerical reasons; in exact
arithmetic the shift is harmless and is kept for fidelity). -/
def alldataShifted (gs : List (List ℚ)) : List ℚ :=
  gs.flatten.map (fun x => x - meanQ gs.flatten)

/-- Model of the `f_oneway` per-sample shifted data (`sample - offset`). -/
def shiftedData (gs : List (List ℚ)) : List (List ℚ) :=
  gs.map (fun g => g.map (fun x => x - meanQ gs.flatten))

/-- Model of the `f_oneway` total sum of squares
`sstot = _sum_of_squares(alldata) - square_of_sums(alldata) / bign`. -/
def sstotF (gs : List (List ℚ)) : ℚ :=
  sumOfSq (alldataShifted gs) - sqOfSum (alldataShifted gs) / (gs.flatten.length : ℚ)

/-- Model of the `f_oneway` between-group sum of squares
`ssbn = Σ square_of_sums(sample) / len(sample) - square_of_sums(alldata)/bign`. -/
def ssbnF (gs : List (List ℚ)) : ℚ :=
  ((shiftedData gs).map (fun a => sqOfSum a / (a.length : ℚ))).sum
    - sqOfSum (alldataShifted gs) / (gs.flatten.length : ℚ)

/-- Model of the `f_oneway` within-group sum of squares `sswn = sstot - ssbn`. -/
def sswnF (gs : List (List ℚ)) : ℚ := sstotF gs - ssbnF gs

/-- Model of the `f_oneway` F statistic `f = msb / msw` with `msb = ssbn / dfbn`,
`msw = sswn / dfwn`, `dfbn = num_groups - 1`, `dfwn = bign - num_groups`. -/
def fOneWayF (gs : List (List ℚ)) : ℚ :=
  (ssbnF gs / ((gs.length - 1 : ℕ) : ℚ))
    / (sswnF gs / ((gs.flatten.length - gs.length : ℕ) : ℚ))

/-- Model of `scipy.stats.f_oneway`, translated from its source: fewer than two
samples raise `TypeError`; otherwise the statistic is `msb / msw` over the
grand-mean-shifted data.  We return the F statistic together with the two
degrees of freedom `(dfbn, dfwn)` that `f_oneway` feeds to the F
distribution (`special.fdtrc(dfbn, dfwn, f)`) to obtain the p-value. -/
def fOneWay (gs : List (List ℚ)) : Except PyError (ℚ × ℕ × ℕ) :=
  if gs.length < 2 then Except.error PyError.atLeastTwoInputsRequired
  else Except.ok (fOneWayF gs, gs.length - 1, gs.flatten.length - gs.length)

/-- Model of `anova_test`: group the prices by `neighbourhood_group` and run
`scipy.stats.f_oneway` on the groups. -/
def anova_test (df : DataFrame) : Except PyError (ℚ × ℕ × ℕ) :=
  fOneWay ((groupKeysSorted df.rows).map (groupPrices df.rows))

/-- Between-group sum of squares as the specification words it:
`Σ nᵢ (mᵢ - m)²` over the groups, `m` the grand mean. -/
def ssbSpec (gs : List (List ℚ)) : ℚ :=
  let m := meanQ gs.flatten
  (gs.map (fun g => (g.length : ℚ) * sqQ (meanQ g - m))).sum

/-- Within-group sum of squares as the specification words it:
`Σᵢ Σ_{x ∈ gᵢ} (x - mᵢ)²`. -/
def sswSpec (gs : List (List ℚ)) : ℚ :=
  (gs.map (fun g => (g.map (fun x => sqQ (x - meanQ g))).sum)).sum

/-- The one-way ANOVA F statistic as the specification words it:
`(SSB/(k-1)) / (SSW/(N-k))`. -/
def fSpec (gs : List (List ℚ)) : ℚ :=
  (ssbSpec gs / ((gs.length : ℚ) - 1))
    / (sswSpec gs / ((gs.flatten.length : ℚ) - (gs.length : ℚ)))

/-- The heap of live DataFrames: Python variables hold references (indices)
into it.  This makes in-place mutation by a pipeline stage observable. -/
structure PdState where
  frames : List DataFrame

/-- Dereference. -/
def PdState.get (s : PdState) (r : ℕ) : DataFrame := s.frames.getD r { rows := [] }

/-- Calling `remove_price_outliers(df)` on the frame referenced by `r`:
boolean-mask selection followed by `.copy()` allocates a fresh frame; the
argument frame is not written. -/
def remove_price_outliers_call (r : ℕ) (s : PdState) : ℕ × PdState :=
  (s.frames.length, ⟨s.frames ++ [remove_price_outliers (s.get r)]⟩)

/-- Calling `normalize_and_discretize(df)` on the frame referenced by `r`:
the two column assignments write through the reference (`df['price_zscore']
= ...`, `df['price_bin'] = ...`) and the same reference is returned; if
`qcut` raises, the z-score column has already been written. -/
noncomputable def normalize_and_discretize_call (σ : ℝ) (r : ℕ) (s : PdState) :
    Except PyError ℕ × PdState :=
  let df := s.get r
  let prices := df.rows.map Record.price
  let df1 := { df with price_zscore := some (zscoreCol prices σ) }
  match qcut3 prices with
  | Except.error e => (Except.error e, ⟨s.frames.set r df1⟩)
  | Except.ok bins =>
      (Except.ok r, ⟨s.frames.set r { df1 with price_bin := some bins }⟩)

/-- A valid row with a given price, used in concrete scenarios. -/
def mkRow (p : PVal) : Record :=
  { price := p, neighbourhood_group := some "Bronx", room_type := some "Entire",
    reviews_per_month := PVal.num 1, last_review := none }

/-- The specification's example input: prices `[10, 20, 20, 30, 1000]` with
otherwise valid categorical fields. -/
def exampleDF : DataFrame :=
  { rows := [mkRow (PVal.num 10), mkRow (PVal.num 20), mkRow (PVal.num 20),
             mkRow (PVal.num 30), mkRow (PVal.num 1000)] }

/-- The `q`-quantile edge `pd.qcut` computes for the price column. -/
def qcutEdge (prices : List PVal) (q : ℚ) : ℚ :=
  quantileSorted (sortQ (dropNan prices)) q

/-- A one-frame heap holding the two-row table with prices 0 and 2, on which
the feature deriver's in-place mutation is exhibited. -/
def pdS0 : PdState :=
  ⟨[{ rows := [mkRow (PVal.num 0), mkRow (PVal.num 2)] }]⟩

/-- The concrete post-filter table with prices `[0, 1, 1, 4, 5]`: it has four
distinct price values and is a fixed point of the outlier filter. -/
def tieDF : DataFrame :=
  { rows := [mkRow (PVal.num 0), mkRow (PVal.num 1), mkRow (PVal.num 1),
             mkRow (PVal.num 4), mkRow (PVal.num 5)] }

/-- The concrete three-row table whose prices are all 100. -/
def constDF : DataFrame :=
  { rows := [mkRow (PVal.num 100), mkRow (PVal.num 100), mkRow (PVal.num 100)] }

/-- The two-row table with prices 0 and 2: population variance 1, sample
variance 2. -/
def twoRowDF : DataFrame :=
  { rows := [mkRow (PVal.num 0), mkRow (PVal.num 2)] }

/-- A row with a given neighbourhood group and price. -/
def grpRow (g : String) (p : ℚ) : Record :=
  { price := PVal.num p, neighbourhood_group := some g,
    room_type := some "Entire", reviews_per_month := PVal.num 1,
    last_review := none }

/-- The specification's ANOVA scenario: groups A = [100, 110, 120] and
B = [200, 210, 220]. -/
def anovaDF : DataFrame :=
  { rows := [grpRow "A" 100, grpRow "A" 110, grpRow "A" 120,
             grpRow "B" 200, grpRow "B" 210, grpRow "B" 220] }

/-- Applying a boolean mask built by mapping a predicate over the very same
list is list filtering. -/
theorem maskFilter_map {α : Type} (p : α → Bool) (l : List α) :
    maskFilter (l.map p) l = l.filter p := by
  induction l with
  | nil => rfl
  | cons x xs ih =>
      by_cases h : p x <;> simp [maskFilter, List.filter_cons, h, ih]

/-- The `fillna` step never leaves a missing value behind. -/
theorem PVal.fillna_ne_nan (z : ℚ) (v : PVal) : PVal.fillna z v ≠ PVal.nan := by
  cases v <;> simp [PVal.fillna]

/-- Float comparison against NaN on the right is false. -/
theorem PVal.le_nan_right (v : PVal) : PVal.le v PVal.nan = false := by
  cases v <;> rfl

/-- C8: on the input with prices `[10, 20, 20, 30, 1000]` and valid
categorical fields, the outlier filter computes Q1 = 20, Q3 = 30, IQR = 10
and upper bound 45 under linear-interpolation quantiles, removes exactly the
row with price 1000, and returns a dataset of exactly 4 rows. -/
theorem outlier_example_scenario :
    seriesQuantile (exampleDF.rows.map Record.price) (1/4) = PVal.num 20 ∧
    seriesQuantile (exampleDF.rows.map Record.price) (3/4) = PVal.num 30 ∧
    PVal.sub (seriesQuantile (exampleDF.rows.map Record.price) (3/4))
      (seriesQuantile (exampleDF.rows.map Record.price) (1/4)) = PVal.num 10 ∧
    (outlierBounds (exampleDF.rows.map Record.price)).2 = PVal.num 45 ∧
    (remove_price_outliers exampleDF).rows =
      [mkRow (PVal.num 10), mkRow (PVal.num 20), mkRow (PVal.num 20),
       mkRow (PVal.num 30)] ∧
    (remove_price_outliers exampleDF).rows.length = 4 := by
  with_unfolding_all decide

/-- C2: after the cleaning steps of `load_data`, no surviving record has a
missing `neighbourhood_group` or `room_type`, `reviews_per_month` is never
missing, and a record whose `reviews_per_month` was missing in the input
survives (when its categorical fields are present) with that field exactly 0. -/
theorem load_data_clean_spec (p : String → Option String) (raw : List Record) :
    (∀ r ∈ load_data_clean p raw,
        r.neighbourhood_group.isSome ∧ r.room_type.isSome ∧
        r.reviews_per_month ≠ PVal.nan) ∧
    (∀ r ∈ raw, r.neighbourhood_group.isSome → r.room_type.isSome →
        r.reviews_per_month = PVal.nan →
        { r with last_review := r.last_review.bind p,
                 reviews_per_month := PVal.num 0 } ∈ load_data_clean p raw) := by
  constructor
  · intro r hr
    unfold load_data_clean at hr
    simp only [List.mem_filter, List.mem_map, Bool.and_eq_true] at hr
    obtain ⟨⟨r1, ⟨r0, hr0, hfr0⟩, hgr1⟩, hng, hrt⟩ := hr
    refine ⟨hng, hrt, ?_⟩
    subst hgr1
    exact PVal.fillna_ne_nan 0 _
  · intro r hr hng hrt hrpm
    unfold load_data_clean
    simp only [List.mem_filter, List.mem_map, Bool.and_eq_true]
    refine ⟨⟨{ r with last_review := r.last_review.bind p }, ⟨r, hr, rfl⟩, ?_⟩, hng, hrt⟩
    simp [hrpm, PVal.fillna]

/-- C2 witness: a concrete two-row table, one row with a missing
`reviews_per_month` (and valid categoricals), one row with a missing
`neighbourhood_group`; the first row survives cleaning with the field 0. -/
theorem load_data_clean_spec_witness :
    { price := PVal.num 50, neighbourhood_group := some "Queens",
      room_type := some "Private", reviews_per_month := PVal.num 0,
      last_review := (none : Option String) } ∈
      load_data_clean (fun _ => none)
        [{ price := PVal.num 50, neighbourhood_group := some "Queens",
           room_type := some "Private", reviews_per_month := PVal.nan,
           last_review := none },
         { price := PVal.num 60, neighbourhood_group := none,
           room_type := some "Shared", reviews_per_month := PVal.num 2,
           last_review := none }] := by
  have h := (load_data_clean_spec (fun _ => none)
    [{ price := PVal.num 50, neighbourhood_group := some "Queens",
       room_type := some "Private", reviews_per_month := PVal.nan,
       last_review := none },
     { price := PVal.num 60, neighbourhood_group := none,
       room_type := some "Shared", reviews_per_month := PVal.num 2,
       last_review := none }]).2
    { price := PVal.num 50, neighbourhood_group := some "Queens",
      room_type := some "Private", reviews_per_month := PVal.nan,
      last_review := none } (by simp) rfl rfl rfl
  simpa using h

/-- C10: the outlier filter never keeps a record whose price is missing: a
NaN price fails both inclusive bound comparisons, so such records are removed
no matter what the bounds are, and the output has no missing prices. -/
theorem outlier_filter_excludes_nan_price (df : DataFrame) :
    (∀ r ∈ df.rows, r.price = PVal.nan → r ∉ (remove_price_outliers df).rows) ∧
    (∀ r ∈ (remove_price_outliers df).rows, r.price ≠ PVal.nan) := by
  have hrows : (remove_price_outliers df).rows =
      df.rows.filter (priceInBounds (outlierBounds (df.rows.map Record.price)).1
        (outlierBounds (df.rows.map Record.price)).2) := by
    unfold remove_price_outliers
    exact maskFilter_map _ _
  have hpred : ∀ r : Record, r.price = PVal.nan →
      priceInBounds (outlierBounds (df.rows.map Record.price)).1
        (outlierBounds (df.rows.map Record.price)).2 r = false := by
    intro r hr
    unfold priceInBounds
    rw [hr, PVal.le_nan_right]
    simp
  constructor
  · intro r _ hnan hmem
    rw [hrows, List.mem_filter] at hmem
    rw [hpred r hnan] at hmem
    exact absurd hmem.2 (by simp)
  · intro r hmem hnan
    rw [hrows, List.mem_filter] at hmem
    rw [hpred r hnan] at hmem
    exact absurd hmem.2 (by simp)

/-- C10 witness: a concrete table with one NaN price among numeric ones; the
NaN row is dropped and the filtered output has no NaN price. -/
theorem outlier_filter_excludes_nan_price_witness :
    mkRow PVal.nan ∈
      ({ rows := [mkRow (PVal.num 10), mkRow PVal.nan, mkRow (PVal.num 20),
                  mkRow (PVal.num 30)] } : DataFrame).rows ∧
    mkRow PVal.nan ∉ (remove_price_outliers
      { rows := [mkRow (PVal.num 10), mkRow PVal.nan, mkRow (PVal.num 20),
                 mkRow (PVal.num 30)] }).rows := by
  refine ⟨by simp, ?_⟩
  exact (outlier_filter_excludes_nan_price _).1 _ (by simp) rfl

/-- C1: with at least one non-missing price, the outlier filter computes Q1
and Q3 by linear-interpolation quantile estimation on the pre-filter input
values, and returns exactly the records whose price `v` satisfies
`Q1 - 1.5*IQR <= v <= Q3 + 1.5*IQR`, both bounds inclusive: the output is the
in-order filtering of the input by that predicate, every in-bounds record is
kept and every out-of-bounds one removed. -/
theorem remove_price_outliers_iqr_spec (df : DataFrame)
    (hne : dropNan (df.rows.map Record.price) ≠ []) :
    ∃ q1 q3 : ℚ,
      seriesQuantile (df.rows.map Record.price) (1/4) = PVal.num q1 ∧
      seriesQuantile (df.rows.map Record.price) (3/4) = PVal.num q3 ∧
      (remove_price_outliers df).rows = df.rows.filter
        (fun r => match r.price with
          | PVal.num v =>
              decide (q1 - 3/2 * (q3 - q1) ≤ v ∧ v ≤ q3 + 3/2 * (q3 - q1))
          | PVal.nan => false) ∧
      (∀ r ∈ df.rows, ∀ v : ℚ, r.price = PVal.num v →
        (r ∈ (remove_price_outliers df).rows ↔
          q1 - 3/2 * (q3 - q1) ≤ v ∧ v ≤ q3 + 3/2 * (q3 - q1))) := by
  have hempty : (dropNan (df.rows.map Record.price)).isEmpty = false := by
    simpa [List.isEmpty_iff] using hne
  set q1 : ℚ := quantileSorted (sortQ (dropNan (df.rows.map Record.price))) (1/4)
    with hq1def
  set q3 : ℚ := quantileSorted (sortQ (dropNan (df.rows.map Record.price))) (3/4)
    with hq3def
  have hq1 : seriesQuantile (df.rows.map Record.price) (1/4) = PVal.num q1 := by
    simp only [seriesQuantile, hempty, Bool.false_eq_true, if_false]
  have hq3 : seriesQuantile (df.rows.map Record.price) (3/4) = PVal.num q3 := by
    simp only [seriesQuantile, hempty, Bool.false_eq_true, if_false]
  have hlb : (outlierBounds (df.rows.map Record.price)).1 =
      PVal.num (q1 - 3/2 * (q3 - q1)) := by
    simp only [outlierBounds, hq1, hq3, PVal.sub, PVal.smul]
  have hub : (outlierBounds (df.rows.map Record.price)).2 =
      PVal.num (q3 + 3/2 * (q3 - q1)) := by
    simp only [outlierBounds, hq1, hq3, PVal.sub, PVal.smul, PVal.add]
  have hpred : priceInBounds (PVal.num (q1 - 3/2 * (q3 - q1)))
      (PVal.num (q3 + 3/2 * (q3 - q1))) =
      (fun r : Record => match r.price with
        | PVal.num v =>
            decide (q1 - 3/2 * (q3 - q1) ≤ v ∧ v ≤ q3 + 3/2 * (q3 - q1))
        | PVal.nan => false) := by
    funext r
    cases hr : r.price with
    | nan => simp [priceInBounds, hr, PVal.le]
    | num v =>
        by_cases h1 : q1 - 3/2 * (q3 - q1) ≤ v <;>
          by_cases h2 : v ≤ q3 + 3/2 * (q3 - q1) <;>
            simp [priceInBounds, hr, PVal.le, h1, h2]
  have hrows0 : (remove_price_outliers df).rows = df.rows.filter
      (priceInBounds (outlierBounds (df.rows.map Record.price)).1
        (outlierBounds (df.rows.map Record.price)).2) := by
    unfold remove_price_outliers
    exact maskFilter_map _ _
  have hrows : (remove_price_outliers df).rows = df.rows.filter
      (fun r : Record => match r.price with
        | PVal.num v =>
            decide (q1 - 3/2 * (q3 - q1) ≤ v ∧ v ≤ q3 + 3/2 * (q3 - q1))
        | PVal.nan => false) := by
    rw [hrows0, hlb, hub, hpred]
  refine ⟨q1, q3, hq1, hq3, hrows, ?_⟩
  intro r hr v hv
  rw [hrows, List.mem_filter]
  constructor
  · intro hmem
    have := hmem.2
    rw [hv] at this
    simpa using this
  · intro hb
    refine ⟨hr, ?_⟩
    rw [hv]
    simpa using hb

/-- C1 witness: the bound characterization applied to the concrete example
table with prices `[10, 20, 20, 30, 1000]`. -/
theorem remove_price_outliers_iqr_spec_witness :
    dropNan (exampleDF.rows.map Record.price) ≠ [] ∧
    (∃ q1 q3 : ℚ,
      seriesQuantile (exampleDF.rows.map Record.price) (1/4) = PVal.num q1 ∧
      seriesQuantile (exampleDF.rows.map Record.price) (3/4) = PVal.num q3 ∧
      (remove_price_outliers exampleDF).rows = exampleDF.rows.filter
        (fun r => match r.price with
          | PVal.num v =>
              decide (q1 - 3/2 * (q3 - q1) ≤ v ∧ v ≤ q3 + 3/2 * (q3 - q1))
          | PVal.nan => false) ∧
      (∀ r ∈ exampleDF.rows, ∀ v : ℚ, r.price = PVal.num v →
        (r ∈ (remove_price_outliers exampleDF).rows ↔
          q1 - 3/2 * (q3 - q1) ≤ v ∧ v ≤ q3 + 3/2 * (q3 - q1)))) :=
  ⟨by with_unfolding_all decide,
   remove_price_outliers_iqr_spec exampleDF (by with_unfolding_all decide)⟩

/-- Appending a fresh frame leaves lookups below the old length unchanged. -/
theorem PdState.get_append (s : PdState) (df : DataFrame) (j : ℕ)
    (h : j < s.frames.length) :
    (PdState.mk (s.frames ++ [df])).get j = s.get j :=
  List.getD_append _ _ _ _ h

/-- Looking up the appended frame. -/
theorem PdState.get_append_new (s : PdState) (df : DataFrame) :
    (PdState.mk (s.frames ++ [df])).get s.frames.length = df := by
  unfold PdState.get
  rw [List.getD_append_right s.frames [df] _ s.frames.length (Nat.le_refl _)]
  simp

/-- Looking up an overwritten frame. -/
theorem PdState.get_set (s : PdState) (df : DataFrame) (r : ℕ)
    (h : r < s.frames.length) :
    (PdState.mk (s.frames.set r df)).get r = df := by
  unfold PdState.get
  simp [List.getD, List.getElem?_set, h]

/-- C9 (amended): the outlier filter allocates a fresh frame and leaves every
existing frame — in particular its input — unchanged; the feature deriver
instead mutates the frame passed to it, writing the `price_zscore` column
(and, when `qcut` succeeds, the `price_bin` column) through the caller's
reference, and returns that same reference rather than a new dataset. -/
theorem pipeline_stage_effects (σ : ℝ) (r : ℕ) (s : PdState)
    (h : r < s.frames.length) :
    ((remove_price_outliers_call r s).1 ≠ r ∧
     (∀ j, j < s.frames.length →
        (remove_price_outliers_call r s).2.get j = s.get j) ∧
     (remove_price_outliers_call r s).2.get (remove_price_outliers_call r s).1 =
        remove_price_outliers (s.get r)) ∧
    (((normalize_and_discretize_call σ r s).2.get r).rows = (s.get r).rows ∧
     ((normalize_and_discretize_call σ r s).2.get r).price_zscore =
        some (zscoreCol ((s.get r).rows.map Record.price) σ) ∧
     (∀ ref, (normalize_and_discretize_call σ r s).1 = Except.ok ref → ref = r)) := by
  constructor
  · refine ⟨Nat.ne_of_gt h, ?_, ?_⟩
    · intro j hj
      exact PdState.get_append s _ j hj
    · exact PdState.get_append_new s _
  · unfold normalize_and_discretize_call
    cases hq : qcut3 ((s.get r).rows.map Record.price) with
    | error e =>
        simp only [hq]
        refine ⟨?_, ?_, ?_⟩
        · rw [PdState.get_set s _ r h]
        · rw [PdState.get_set s _ r h]
        · intro ref href
          simp at href
    | ok bins =>
        simp only [hq]
        refine ⟨?_, ?_, ?_⟩
        · rw [PdState.get_set s _ r h]
        · rw [PdState.get_set s _ r h]
        · intro ref href
          simp at href
          exact href.symm

/-- C9 counterexample: the feature deriver does not leave the dataset passed
to it unchanged — calling it on the frame of `pdS0` succeeds, returns the
very same reference, and afterwards the input frame differs from what it was
(its `price_bin` column is now present). -/
theorem normalize_mutates_input_counterexample :
    (normalize_and_discretize_call 1 0 pdS0).1 = Except.ok 0 ∧
    (normalize_and_discretize_call 1 0 pdS0).2.get 0 ≠ pdS0.get 0 := by
  have hq : qcut3 ((pdS0.get 0).rows.map Record.price) =
      Except.ok [some Bin.low, some Bin.high] := by
    with_unfolding_all rfl
  constructor
  · unfold normalize_and_discretize_call
    simp only [hq]
  · unfold normalize_and_discretize_call
    simp only [hq]
    intro hcontra
    have hbin := congrArg DataFrame.price_bin hcontra
    rw [PdState.get_set pdS0 _ 0 (by with_unfolding_all decide)] at hbin
    have : (pdS0.get 0).price_bin = none := by with_unfolding_all decide
    rw [this] at hbin
    simp at hbin

/-- C9 witness: the frame-effect theorem applied to the concrete one-frame
heap `pdS0`. -/
theorem pipeline_stage_effects_witness :
    0 < pdS0.frames.length ∧
    ((remove_price_outliers_call 0 pdS0).1 ≠ 0 ∧
     (∀ j, j < pdS0.frames.length →
        (remove_price_outliers_call 0 pdS0).2.get j = pdS0.get j) ∧
     (remove_price_outliers_call 0 pdS0).2.get (remove_price_outliers_call 0 pdS0).1 =
        remove_price_outliers (pdS0.get 0)) ∧
    (((normalize_and_discretize_call 1 0 pdS0).2.get 0).rows = (pdS0.get 0).rows ∧
     ((normalize_and_discretize_call 1 0 pdS0).2.get 0).price_zscore =
        some (zscoreCol ((pdS0.get 0).rows.map Record.price) 1) ∧
     (∀ ref, (normalize_and_discretize_call 1 0 pdS0).1 = Except.ok ref → ref = 0)) :=
  ⟨by with_unfolding_all decide, pipeline_stage_effects 1 0 pdS0 (by with_unfolding_all decide)⟩

/-- The 0-quantile edge is the first element of the sorted data. -/
theorem quantileSorted_zero (s : List ℚ) : quantileSorted s 0 = s.getD 0 0 := by
  simp [quantileSorted]

/-- The 1-quantile edge is the last element of the sorted data. -/
theorem quantileSorted_one (s : List ℚ) (h : s ≠ []) :
    quantileSorted s 1 = s.getD (s.length - 1) 0 := by
  have hlen : 1 ≤ s.length := List.length_pos.mpr h
  have hcast : ((s.length : ℚ) - 1) = ((s.length - 1 : ℕ) : ℚ) := by
    push_cast [hlen]
    ring
  unfold quantileSorted
  simp only [one_mul, hcast, Rat.num_natCast, Rat.den_natCast, Int.toNat_natCast,
    Nat.div_one]
  rw [List.getD_eq_default _ _ (by omega : s.length ≤ s.length - 1 + 1)]
  simp

/-- An in-range `getD` is a member. -/
theorem getD_mem_of_lt {α : Type} (l : List α) (d : α) (n : ℕ) (h : n < l.length) :
    l.getD n d ∈ l := by
  rw [List.getD_eq_getElem l d h]
  exact List.getElem_mem h

/-- A value of the NaN-stripped column comes from a non-missing cell. -/
theorem mem_of_mem_dropNan {l : List PVal} {x : ℚ} (h : x ∈ dropNan l) :
    PVal.num x ∈ l := by
  unfold dropNan at h
  rw [List.mem_filterMap] at h
  obtain ⟨a, ha, hfa⟩ := h
  cases a with
  | nan => simp at hfa
  | num y =>
      simp at hfa
      rwa [hfa] at ha

/-- Sorting preserves membership. -/
theorem mem_sortQ {l : List ℚ} {x : ℚ} : x ∈ sortQ l ↔ x ∈ l :=
  (List.perm_insertionSort _ l).mem_iff

/-- Sorting preserves emptiness. -/
theorem sortQ_ne_nil {l : List ℚ} (h : l ≠ []) : sortQ l ≠ [] := by
  intro hs
  apply h
  have hp := List.perm_insertionSort (fun a b : ℚ => a ≤ b) l
  rw [show sortQ l = List.insertionSort (fun a b : ℚ => a ≤ b) l from rfl] at hs
  rw [hs] at hp
  exact hp.symm.eq_nil

/-- The tertile label is monotone in the value: a cheaper price never gets a
higher label. -/
theorem binOf_mono (e1 e2 : ℚ) {x y : ℚ} (hxy : x ≤ y) :
    (binOf e1 e2 x).idx ≤ (binOf e1 e2 y).idx := by
  unfold binOf
  by_cases h1 : x ≤ e1
  · simp only [h1, if_true]
    exact Nat.zero_le _
  · have hy1 : ¬ y ≤ e1 := fun hy => h1 (hxy.trans hy)
    by_cases h2 : x ≤ e2
    · simp only [h1, hy1, h2, if_true, if_false]
      by_cases h4 : y ≤ e2 <;> simp [h4, Bin.idx]
    · have hy2 : ¬ y ≤ e2 := fun hy => h2 (hxy.trans hy)
      simp [h1, hy1, h2, hy2, Bin.idx]

/-- C7 (amended): when the four quantile edges are pairwise distinct (the
condition under which `pd.qcut` does not raise), the `price_bin` derivation
labels every non-missing price with the right-closed tertile rule at the 1/3
and 2/3 linear-interpolation quantile edges, the labels ascend with price,
and the `low` and `high` groups are both non-empty.  (With merely 3 distinct
values among ties the `medium` group can be empty and the group sizes can
differ by more than `ceil(N/3)`; see the counterexample.) -/
theorem qcut3_partition_spec (prices : List PVal)
    (hne : dropNan prices ≠ [])
    (hasc : strictAsc [qcutEdge prices 0, qcutEdge prices (1/3),
      qcutEdge prices (2/3), qcutEdge prices 1] = true) :
    qcut3 prices = Except.ok (prices.map (fun v => match v with
        | PVal.num x => some (binOf (qcutEdge prices (1/3)) (qcutEdge prices (2/3)) x)
        | PVal.nan => none)) ∧
    some Bin.low ∈ prices.map (fun v => match v with
        | PVal.num x => some (binOf (qcutEdge prices (1/3)) (qcutEdge prices (2/3)) x)
        | PVal.nan => none) ∧
    some Bin.high ∈ prices.map (fun v => match v with
        | PVal.num x => some (binOf (qcutEdge prices (1/3)) (qcutEdge prices (2/3)) x)
        | PVal.nan => none) ∧
    (∀ x y : ℚ, x ≤ y →
      (binOf (qcutEdge prices (1/3)) (qcutEdge prices (2/3)) x).idx ≤
      (binOf (qcutEdge prices (1/3)) (qcutEdge prices (2/3)) y).idx) := by
  have hasc' : qcutEdge prices 0 < qcutEdge prices (1/3) ∧
      qcutEdge prices (1/3) < qcutEdge prices (2/3) ∧
      qcutEdge prices (2/3) < qcutEdge prices 1 := by
    simpa [strictAsc] using hasc
  obtain ⟨h01, h12, h23⟩ := hasc'
  have hs : sortQ (dropNan prices) ≠ [] := sortQ_ne_nil hne
  have hslen : 0 < (sortQ (dropNan prices)).length := List.length_pos.mpr hs
  have hmain : qcut3 prices = Except.ok (prices.map (fun v => match v with
      | PVal.num x => some (binOf (qcutEdge prices (1/3)) (qcutEdge prices (2/3)) x)
      | PVal.nan => none)) := by
    unfold qcutEdge at hasc
    simp only [qcut3]
    rw [hasc]
    simp [qcutEdge]
  refine ⟨hmain, ?_, ?_, fun x y h => binOf_mono _ _ h⟩
  · -- the minimum is labelled low
    have hmem0 : (sortQ (dropNan prices)).getD 0 0 ∈ dropNan prices :=
      mem_sortQ.mp (getD_mem_of_lt _ _ _ hslen)
    have hv : PVal.num ((sortQ (dropNan prices)).getD 0 0) ∈ prices :=
      mem_of_mem_dropNan hmem0
    have he0 : qcutEdge prices 0 = (sortQ (dropNan prices)).getD 0 0 :=
      quantileSorted_zero _
    have hlabel : binOf (qcutEdge prices (1/3)) (qcutEdge prices (2/3))
        ((sortQ (dropNan prices)).getD 0 0) = Bin.low := by
      unfold binOf
      rw [if_pos]
      rw [← he0]
      exact le_of_lt h01
    exact List.mem_map.mpr ⟨PVal.num ((sortQ (dropNan prices)).getD 0 0), hv,
      by exact congrArg some hlabel⟩
  · -- the maximum is labelled high
    have hmeml : (sortQ (dropNan prices)).getD ((sortQ (dropNan prices)).length - 1) 0
        ∈ dropNan prices :=
      mem_sortQ.mp (getD_mem_of_lt _ _ _ (by omega))
    have hv : PVal.num ((sortQ (dropNan prices)).getD
        ((sortQ (dropNan prices)).length - 1) 0) ∈ prices :=
      mem_of_mem_dropNan hmeml
    have he3 : qcutEdge prices 1 =
        (sortQ (dropNan prices)).getD ((sortQ (dropNan prices)).length - 1) 0 :=
      quantileSorted_one _ hs
    have hgt2 : qcutEdge prices (2/3) <
        (sortQ (dropNan prices)).getD ((sortQ (dropNan prices)).length - 1) 0 := by
      rw [← he3]
      exact h23
    have hgt1 : qcutEdge prices (1/3) <
        (sortQ (dropNan prices)).getD ((sortQ (dropNan prices)).length - 1) 0 :=
      h12.trans hgt2
    have hlabel : binOf (qcutEdge prices (1/3)) (qcutEdge prices (2/3))
        ((sortQ (dropNan prices)).getD ((sortQ (dropNan prices)).length - 1) 0) =
        Bin.high := by
      unfold binOf
      rw [if_neg (not_le.mpr hgt1), if_neg (not_le.mpr hgt2)]
    exact List.mem_map.mpr ⟨_, hv, by exact congrArg some hlabel⟩

/-- C7 counterexample: on the post-filter dataset with prices
`[0, 1, 1, 4, 5]` (4 ≥ 3 distinct values, untouched by the outlier filter),
`pd.qcut` succeeds but produces labels `[low, low, low, high, high]`: the
`medium` group is empty (so there are not 3 non-empty groups) and the group
sizes 3, 0, 2 differ by 3 > ceil(5/3) = 2. -/
theorem price_bin_empty_medium_counterexample :
    (remove_price_outliers tieDF).rows = tieDF.rows ∧
    (dropNan (tieDF.rows.map Record.price)).dedup.length = 4 ∧
    qcut3 (tieDF.rows.map Record.price) =
      Except.ok [some Bin.low, some Bin.low, some Bin.low,
                 some Bin.high, some Bin.high] ∧
    ([some Bin.low, some Bin.low, some Bin.low, some Bin.high,
      some Bin.high].count (some Bin.medium) = 0 ∧
     [some Bin.low, some Bin.low, some Bin.low, some Bin.high,
      some Bin.high].count (some Bin.low) = 3 ∧
     (5 + 2) / 3 <
       [some Bin.low, some Bin.low, some Bin.low, some Bin.high,
        some Bin.high].count (some Bin.low) -
       [some Bin.low, some Bin.low, some Bin.low, some Bin.high,
        some Bin.high].count (some Bin.medium)) := by
  refine ⟨by with_unfolding_all decide, by with_unfolding_all decide, ?_, ?_⟩
  · with_unfolding_all rfl
  · refine ⟨by with_unfolding_all decide, by with_unfolding_all decide,
      by with_unfolding_all decide⟩

/-- C7 witness: the partition theorem applied to the table with the three
distinct prices `[0, 1, 2]`, whose quantile edges are distinct. -/
theorem qcut3_partition_spec_witness :
    dropNan [PVal.num 0, PVal.num 1, PVal.num 2] ≠ [] ∧
    strictAsc [qcutEdge [PVal.num 0, PVal.num 1, PVal.num 2] 0,
      qcutEdge [PVal.num 0, PVal.num 1, PVal.num 2] (1/3),
      qcutEdge [PVal.num 0, PVal.num 1, PVal.num 2] (2/3),
      qcutEdge [PVal.num 0, PVal.num 1, PVal.num 2] 1] = true ∧
    (qcut3 [PVal.num 0, PVal.num 1, PVal.num 2] =
      Except.ok ([PVal.num 0, PVal.num 1, PVal.num 2].map (fun v => match v with
        | PVal.num x => some (binOf (qcutEdge [PVal.num 0, PVal.num 1, PVal.num 2] (1/3))
            (qcutEdge [PVal.num 0, PVal.num 1, PVal.num 2] (2/3)) x)
        | PVal.nan => none)) ∧
    some Bin.low ∈ [PVal.num 0, PVal.num 1, PVal.num 2].map (fun v => match v with
        | PVal.num x => some (binOf (qcutEdge [PVal.num 0, PVal.num 1, PVal.num 2] (1/3))
            (qcutEdge [PVal.num 0, PVal.num 1, PVal.num 2] (2/3)) x)
        | PVal.nan => none) ∧
    some Bin.high ∈ [PVal.num 0, PVal.num 1, PVal.num 2].map (fun v => match v with
        | PVal.num x => some (binOf (qcutEdge [PVal.num 0, PVal.num 1, PVal.num 2] (1/3))
            (qcutEdge [PVal.num 0, PVal.num 1, PVal.num 2] (2/3)) x)
        | PVal.nan => none) ∧
    (∀ x y : ℚ, x ≤ y →
      (binOf (qcutEdge [PVal.num 0, PVal.num 1, PVal.num 2] (1/3))
        (qcutEdge [PVal.num 0, PVal.num 1, PVal.num 2] (2/3)) x).idx ≤
      (binOf (qcutEdge [PVal.num 0, PVal.num 1, PVal.num 2] (1/3))
        (qcutEdge [PVal.num 0, PVal.num 1, PVal.num 2] (2/3)) y).idx)) :=
  ⟨by with_unfolding_all decide, by with_unfolding_all decide,
   qcut3_partition_spec [PVal.num 0, PVal.num 1, PVal.num 2]
     (by with_unfolding_all decide) (by with_unfolding_all decide)⟩

/-- Sorting a constant list is the identity. -/
theorem sortQ_replicate (n : ℕ) (c : ℚ) :
    sortQ (List.replicate n c) = List.replicate n c := by
  induction n with
  | zero => rfl
  | succ k ih =>
      show List.insertionSort (fun a b : ℚ => a ≤ b) (c :: List.replicate k c) = _
      rw [List.insertionSort]
      rw [show List.insertionSort (fun a b : ℚ => a ≤ b) (List.replicate k c)
        = List.replicate k c from ih]
      cases k with
      | zero => rfl
      | succ j =>
          rw [List.replicate_succ, List.orderedInsert]
          rw [if_pos (le_refl c)]
          rfl

/-- Lookup with `getD` on a constant list. -/
theorem getD_replicate_of_lt (n i : ℕ) (c : ℚ) (h : i < n) :
    (List.replicate n c).getD i 0 = c := by
  rw [List.getD_eq_getElem _ _ (by simpa using h)]
  simp

/-- If every row's price is the constant `c`, the NaN-stripped price column
is the constant list. -/
theorem dropNan_const {rows : List Record} {c : ℚ}
    (hall : ∀ r ∈ rows, r.price = PVal.num c) :
    dropNan (rows.map Record.price) = List.replicate rows.length c := by
  induction rows with
  | nil => rfl
  | cons r t ih =>
      have hr := hall r (List.mem_cons_self r t)
      have ht : ∀ x ∈ t, x.price = PVal.num c := fun x hx =>
        hall x (List.mem_cons_of_mem r hx)
      show dropNan (r.price :: t.map Record.price) = _
      rw [hr]
      rw [show dropNan (PVal.num c :: t.map Record.price) =
        c :: dropNan (t.map Record.price) from by simp [dropNan]]
      rw [ih ht]
      simp [List.replicate_succ]

/-- Mean of a constant list. -/
theorem meanQ_replicate (n : ℕ) (c : ℚ) (h : 0 < n) :
    meanQ (List.replicate n c) = c := by
  unfold meanQ
  rw [List.sum_replicate, List.length_replicate, nsmul_eq_mul]
  have hn : (n : ℚ) ≠ 0 := by exact_mod_cast Nat.pos_iff_ne_zero.mp h
  rw [mul_comm, mul_div_assoc, div_self hn, mul_one]

/-- Population variance of a constant list is zero. -/
theorem popVarQ_replicate (n : ℕ) (c : ℚ) (h : 0 < n) :
    popVarQ (List.replicate n c) = 0 := by
  unfold popVarQ ssQ
  rw [meanQ_replicate n c h]
  rw [List.map_replicate]
  simp [sqQ]

/-- Elementwise float division of the centred constant column by a zero
standard deviation: every entry is NaN. -/
theorem map_fdiv_const (μ c : ℚ) (hμc : μ = c) (rows : List Record)
    (hall : ∀ r ∈ rows, r.price = PVal.num c) :
    (rows.map Record.price).map (fun v => match v with
      | PVal.num x => fdiv ((x : ℝ) - (μ : ℝ)) 0
      | PVal.nan => RVal.nan) = List.replicate rows.length RVal.nan := by
  induction rows with
  | nil => rfl
  | cons r t ih =>
      have hr := hall r (List.mem_cons_self r t)
      have ht : ∀ x ∈ t, x.price = PVal.num c := fun x hx =>
        hall x (List.mem_cons_of_mem r hx)
      simp only [List.map_cons, hr, List.length_cons, List.replicate_succ]
      rw [ih ht]
      have hz : fdiv ((c : ℝ) - (μ : ℝ)) 0 = RVal.nan := by
        rw [hμc, sub_self]
        simp [fdiv]
      exact congrArg (fun z => z :: List.replicate t.length RVal.nan) hz

/-- C5 (amended): on a dataset whose prices all equal a constant (population
standard deviation zero), the z-score computation in
`normalize_and_discretize` raises nothing and silently produces NaN for
every row (0.0/0.0), and the function then fails — but with `pd.qcut`'s
`ValueError` for duplicate bin edges, not with any degenerate-distribution
error: no `DegenerateDistributionError` exists in the code. -/
theorem degenerate_std_nan_zscore (df : DataFrame) (c : ℚ)
    (hne : df.rows ≠ [])
    (hall : ∀ r ∈ df.rows, r.price = PVal.num c) :
    (∀ σ : ℝ, IsPopStd (dropNan (df.rows.map Record.price)) σ → σ = 0) ∧
    zscoreCol (df.rows.map Record.price) 0 =
      List.replicate df.rows.length RVal.nan ∧
    normalize_and_discretize df 0 = Except.error PyError.binEdgesNotUnique := by
  have hlen : 0 < df.rows.length := List.length_pos.mpr hne
  have hdrop : dropNan (df.rows.map Record.price) =
      List.replicate df.rows.length c := dropNan_const hall
  have hvar : popVarQ (dropNan (df.rows.map Record.price)) = 0 := by
    rw [hdrop]
    exact popVarQ_replicate _ _ hlen
  have hmean : meanQ (dropNan (df.rows.map Record.price)) = c := by
    rw [hdrop]
    exact meanQ_replicate _ _ hlen
  refine ⟨?_, ?_, ?_⟩
  · intro σ hσ
    obtain ⟨h0, h2⟩ := hσ
    rw [hvar] at h2
    have : σ ^ 2 = 0 := by
      rw [h2]
      norm_num
    exact (pow_eq_zero_iff (by norm_num : (2:ℕ) ≠ 0)).mp this
  · show (df.rows.map Record.price).map _ = _
    exact map_fdiv_const _ c hmean df.rows hall
  · have hq : qcut3 (df.rows.map Record.price) =
        Except.error PyError.binEdgesNotUnique := by
      have hsort : sortQ (dropNan (df.rows.map Record.price)) =
          List.replicate df.rows.length c := by
        rw [hdrop]
        exact sortQ_replicate _ _
      have he0 : quantileSorted (sortQ (dropNan (df.rows.map Record.price))) 0 = c := by
        rw [quantileSorted_zero, hsort]
        exact getD_replicate_of_lt _ _ _ hlen
      have he3 : quantileSorted (sortQ (dropNan (df.rows.map Record.price))) 1 = c := by
        rw [quantileSorted_one _ (by
          rw [hsort]
          exact List.ne_nil_of_length_pos (by simpa using hlen)), hsort]
        rw [List.length_replicate]
        exact getD_replicate_of_lt _ _ _ (by omega)
      have hfalse : strictAsc
          [quantileSorted (sortQ (dropNan (df.rows.map Record.price))) 0,
           quantileSorted (sortQ (dropNan (df.rows.map Record.price))) (1/3),
           quantileSorted (sortQ (dropNan (df.rows.map Record.price))) (2/3),
           quantileSorted (sortQ (dropNan (df.rows.map Record.price))) 1] = false := by
        cases hsa : strictAsc
            [quantileSorted (sortQ (dropNan (df.rows.map Record.price))) 0,
             quantileSorted (sortQ (dropNan (df.rows.map Record.price))) (1/3),
             quantileSorted (sortQ (dropNan (df.rows.map Record.price))) (2/3),
             quantileSorted (sortQ (dropNan (df.rows.map Record.price))) 1] with
        | false => rfl
        | true =>
            exfalso
            have h3 : quantileSorted (sortQ (dropNan (df.rows.map Record.price))) 0 <
                quantileSorted (sortQ (dropNan (df.rows.map Record.price))) 1 := by
              have := (by simpa [strictAsc] using hsa :
                quantileSorted (sortQ (dropNan (df.rows.map Record.price))) 0 <
                  quantileSorted (sortQ (dropNan (df.rows.map Record.price))) (1/3) ∧
                quantileSorted (sortQ (dropNan (df.rows.map Record.price))) (1/3) <
                  quantileSorted (sortQ (dropNan (df.rows.map Record.price))) (2/3) ∧
                quantileSorted (sortQ (dropNan (df.rows.map Record.price))) (2/3) <
                  quantileSorted (sortQ (dropNan (df.rows.map Record.price))) 1)
              exact this.1.trans (this.2.1.trans this.2.2)
            rw [he0, he3] at h3
            exact lt_irrefl c h3
      simp only [qcut3]
      rw [hfalse]
      simp
    simp only [normalize_and_discretize, hq]

/-- C5 counterexample: on the all-equal-price table, 0 is the population
standard deviation of the price column, yet the z-score derivation silently
produces a value (NaN) for every row instead of failing, and the operation's
actual failure is `pd.qcut`'s duplicate-bin-edges `ValueError` — there is no
`DegenerateDistributionError`. -/
theorem degenerate_std_no_error_counterexample :
    IsPopStd (dropNan (constDF.rows.map Record.price)) 0 ∧
    zscoreCol (constDF.rows.map Record.price) 0 = [RVal.nan, RVal.nan, RVal.nan] ∧
    normalize_and_discretize constDF 0 = Except.error PyError.binEdgesNotUnique := by
  have hall : ∀ r ∈ constDF.rows, r.price = PVal.num 100 := by
    with_unfolding_all decide
  have hlen : 0 < constDF.rows.length := by with_unfolding_all decide
  have hdrop : dropNan (constDF.rows.map Record.price) =
      List.replicate constDF.rows.length 100 := dropNan_const hall
  have hmean : meanQ (dropNan (constDF.rows.map Record.price)) = 100 := by
    rw [hdrop]
    exact meanQ_replicate _ _ hlen
  refine ⟨⟨le_refl 0, ?_⟩, ?_, ?_⟩
  · rw [hdrop, popVarQ_replicate _ _ hlen]
    norm_num
  · have h := map_fdiv_const (meanQ (dropNan (constDF.rows.map Record.price)))
      100 hmean constDF.rows hall
    show (constDF.rows.map Record.price).map (fun v => match v with
      | PVal.num x =>
          fdiv ((x : ℝ) - ((meanQ (dropNan (constDF.rows.map Record.price)) : ℚ) : ℝ)) 0
      | PVal.nan => RVal.nan) = [RVal.nan, RVal.nan, RVal.nan]
    rw [h]
    rfl
  · have hq : qcut3 (constDF.rows.map Record.price) =
        Except.error PyError.binEdgesNotUnique := by
      with_unfolding_all rfl
    simp only [normalize_and_discretize, hq]

/-- C5 witness for the amended claim: the all-equal table `constDF`
instantiates the amended theorem. -/
theorem degenerate_std_nan_zscore_witness :
    constDF.rows ≠ [] ∧
    (∀ σ : ℝ, IsPopStd (dropNan (constDF.rows.map Record.price)) σ → σ = 0) ∧
    zscoreCol (constDF.rows.map Record.price) 0 =
      List.replicate constDF.rows.length RVal.nan ∧
    normalize_and_discretize constDF 0 = Except.error PyError.binEdgesNotUnique :=
  ⟨by with_unfolding_all decide,
   degenerate_std_nan_zscore constDF 100 (by with_unfolding_all decide)
     (by with_unfolding_all decide)⟩

/-- Summing a column shifted by a constant. -/
theorem sum_map_sub_const (L : List ℝ) (c : ℝ) :
    (L.map (fun x => x - c)).sum = L.sum - (L.length : ℝ) * c := by
  induction L with
  | nil => simp
  | cons a t ih =>
      simp only [List.map_cons, List.sum_cons, List.length_cons, ih]
      push_cast
      ring

/-- Summing a column divided by a constant. -/
theorem sum_map_div_const {α : Type} (L : List α) (f : α → ℝ) (c : ℝ) :
    (L.map (fun x => f x / c)).sum = (L.map f).sum / c := by
  induction L with
  | nil => simp
  | cons a t ih =>
      simp only [List.map_cons, List.sum_cons, ih]
      ring

/-- The centred column sums to zero. -/
theorem sum_map_sub_mean (L : List ℝ) (h : L ≠ []) :
    (L.map (fun x => x - meanR L)).sum = 0 := by
  have hn : (L.length : ℝ) ≠ 0 := by
    exact_mod_cast Nat.pos_iff_ne_zero.mp (List.length_pos.mpr h)
  rw [sum_map_sub_const]
  unfold meanR
  rw [mul_div_cancel₀ _ hn]
  ring

/-- Mean of the z-score column is exactly zero. -/
theorem meanR_zscore (L : List ℝ) (σ : ℝ) (h : L ≠ []) :
    meanR (L.map (fun x => (x - meanR L) / σ)) = 0 := by
  have hsum : (L.map (fun x => (x - meanR L) / σ)).sum = 0 := by
    rw [sum_map_div_const L (fun x => x - meanR L) σ, sum_map_sub_mean L h,
      zero_div]
  rw [show meanR (L.map (fun x => (x - meanR L) / σ)) =
    (L.map (fun x => (x - meanR L) / σ)).sum /
      ((L.map (fun x => (x - meanR L) / σ)).length : ℝ) from rfl]
  rw [hsum, zero_div]

/-- Population variance of the z-score column is exactly one. -/
theorem popVarR_zscore (L : List ℝ) (σ : ℝ) (h : L ≠ []) (hσ : σ ≠ 0)
    (hvar : σ ^ 2 = popVarR L) :
    popVarR (L.map (fun x => (x - meanR L) / σ)) = 1 := by
  rw [show popVarR (L.map (fun x => (x - meanR L) / σ)) =
    ((L.map (fun x => (x - meanR L) / σ)).map
      (fun z => (z - meanR (L.map (fun x => (x - meanR L) / σ))) ^ 2)).sum /
      ((L.map (fun x => (x - meanR L) / σ)).length : ℝ) from rfl]
  rw [meanR_zscore L σ h]
  simp only [sub_zero, List.map_map, List.length_map]
  have hcomp : ((fun z : ℝ => z ^ 2) ∘ fun x => (x - meanR L) / σ) =
      fun x => (x - meanR L) ^ 2 / σ ^ 2 := by
    funext x
    simp [div_pow]
  rw [hcomp]
  rw [sum_map_div_const L (fun x => (x - meanR L) ^ 2) (σ ^ 2)]
  rw [div_div, mul_comm (σ ^ 2), ← div_div]
  rw [show (L.map (fun x => (x - meanR L) ^ 2)).sum / (L.length : ℝ) =
    popVarR L from rfl]
  rw [← hvar]
  exact div_self (pow_ne_zero 2 hσ)

/-- Casting the exact mean to the reals. -/
theorem meanQ_cast (l : List ℚ) :
    ((meanQ l : ℚ) : ℝ) = meanR (l.map (fun q : ℚ => (q : ℝ))) := by
  unfold meanQ meanR
  push_cast
  rw [List.length_map]

/-- Casting the exact population variance to the reals. -/
theorem popVarQ_cast (l : List ℚ) :
    ((popVarQ l : ℚ) : ℝ) = popVarR (l.map (fun q : ℚ => (q : ℝ))) := by
  unfold popVarQ ssQ popVarR
  push_cast
  simp only [List.length_map, List.map_map]
  congr 1
  apply congrArg List.sum
  apply List.map_congr_left
  intro a _
  simp only [Function.comp_apply, sqQ]
  push_cast
  rw [meanQ_cast]
  ring

/-- The ideal z-score list is the centred-and-scaled real column. -/
theorem zscoreList_eq (l : List ℚ) (σ : ℝ) :
    zscoreList l σ = (l.map (fun q : ℚ => (q : ℝ))).map
      (fun x => (x - meanR (l.map (fun q : ℚ => (q : ℝ)))) / σ) := by
  unfold zscoreList
  rw [List.map_map]
  apply List.map_congr_left
  intro a _
  simp only [Function.comp_apply]
  rw [meanQ_cast]

/-- Elementwise: float division by a nonzero constant is exact division. -/
theorem map_fdiv_eq_map_num (μ : ℚ) (σ : ℝ) (hσ : σ ≠ 0) :
    ∀ prices : List PVal, (∀ v ∈ prices, v ≠ PVal.nan) →
    prices.map (fun v => match v with
      | PVal.num x => fdiv ((x : ℝ) - (μ : ℝ)) σ
      | PVal.nan => RVal.nan) =
    (dropNan prices).map (fun x : ℚ => RVal.num (((x : ℝ) - (μ : ℝ)) / σ)) := by
  intro prices
  induction prices with
  | nil => intro _; rfl
  | cons v t ih =>
      intro hclean
      have ht : ∀ w ∈ t, w ≠ PVal.nan := fun w hw =>
        hclean w (List.mem_cons_of_mem _ hw)
      cases v with
      | nan => exact absurd rfl (hclean PVal.nan (List.mem_cons_self _ t))
      | num x =>
          have hdrop : dropNan (PVal.num x :: t) = x :: dropNan t := by
            simp [dropNan]
          rw [hdrop]
          simp only [List.map_cons]
          rw [ih ht]
          have hhead : fdiv ((x : ℝ) - (μ : ℝ)) σ =
              RVal.num (((x : ℝ) - (μ : ℝ)) / σ) := by
            unfold fdiv
            rw [if_neg hσ]
          exact congrArg (fun z => z :: (dropNan t).map
            (fun y : ℚ => RVal.num (((y : ℝ) - (μ : ℝ)) / σ))) hhead

/-- For a NaN-free column and a nonzero standard deviation, the float z-score
column computed by `normalize_and_discretize` is the ideal z-score list. -/
theorem zscoreCol_eq_zscoreList (prices : List PVal) (σ : ℝ) (hσ : σ ≠ 0)
    (hclean : ∀ v ∈ prices, v ≠ PVal.nan) :
    zscoreCol prices σ = (zscoreList (dropNan prices) σ).map RVal.num := by
  have h := map_fdiv_eq_map_num (meanQ (dropNan prices)) σ hσ prices hclean
  refine h.trans ?_
  unfold zscoreList
  rw [List.map_map]
  exact List.map_congr_left (fun a _ => rfl)

/-- C3: for a NaN-free, non-empty price column with nonzero population
standard deviation σ, the `price_zscore` column produced by
`normalize_and_discretize` is (elementwise) the exact z-score list, whose
mean is exactly 0 and whose population variance is exactly 1 — hence its
population standard deviation is exactly 1. -/
theorem price_zscore_mean_std (df : DataFrame) (σ : ℝ)
    (hne : dropNan (df.rows.map Record.price) ≠ [])
    (hclean : ∀ v ∈ df.rows.map Record.price, v ≠ PVal.nan)
    (hstd : IsPopStd (dropNan (df.rows.map Record.price)) σ)
    (hσ : σ ≠ 0) :
    zscoreCol (df.rows.map Record.price) σ =
      (zscoreList (dropNan (df.rows.map Record.price)) σ).map RVal.num ∧
    meanR (zscoreList (dropNan (df.rows.map Record.price)) σ) = 0 ∧
    popVarR (zscoreList (dropNan (df.rows.map Record.price)) σ) = 1 ∧
    (∀ s : ℝ, IsPopStdR (zscoreList (dropNan (df.rows.map Record.price)) σ) s →
      s = 1) := by
  have hLne : (dropNan (df.rows.map Record.price)).map (fun q : ℚ => (q : ℝ)) ≠ [] := by
    intro hx
    exact hne (List.map_eq_nil_iff.mp hx)
  have hvar : σ ^ 2 =
      popVarR ((dropNan (df.rows.map Record.price)).map (fun q : ℚ => (q : ℝ))) :=
    hstd.2.trans (popVarQ_cast _)
  have hZ := zscoreList_eq (dropNan (df.rows.map Record.price)) σ
  have hmean : meanR (zscoreList (dropNan (df.rows.map Record.price)) σ) = 0 := by
    rw [hZ]
    exact meanR_zscore _ σ hLne
  have hvar1 : popVarR (zscoreList (dropNan (df.rows.map Record.price)) σ) = 1 := by
    rw [hZ]
    exact popVarR_zscore _ σ hLne hσ hvar
  refine ⟨zscoreCol_eq_zscoreList _ σ hσ hclean, hmean, hvar1, ?_⟩
  intro s hsstd
  obtain ⟨hs0, hs2⟩ := hsstd
  rw [hvar1] at hs2
  have h1 : (s - 1) * (s + 1) = 0 := by nlinarith
  rcases mul_eq_zero.mp h1 with h | h
  · linarith
  · linarith

/-- C3 witness: the z-score normalization theorem applied to the two-row
table with prices 0 and 2, whose population standard deviation is 1. -/
theorem price_zscore_mean_std_witness :
    dropNan (twoRowDF.rows.map Record.price) ≠ [] ∧
    IsPopStd (dropNan (twoRowDF.rows.map Record.price)) 1 ∧
    (zscoreCol (twoRowDF.rows.map Record.price) 1 =
      (zscoreList (dropNan (twoRowDF.rows.map Record.price)) 1).map RVal.num ∧
    meanR (zscoreList (dropNan (twoRowDF.rows.map Record.price)) 1) = 0 ∧
    popVarR (zscoreList (dropNan (twoRowDF.rows.map Record.price)) 1) = 1 ∧
    (∀ s : ℝ, IsPopStdR (zscoreList (dropNan (twoRowDF.rows.map Record.price)) 1) s →
      s = 1)) := by
  have hvar : popVarQ (dropNan (twoRowDF.rows.map Record.price)) = 1 := by
    with_unfolding_all decide
  refine ⟨by with_unfolding_all decide, ⟨zero_le_one, by rw [hvar]; norm_num⟩, ?_⟩
  exact price_zscore_mean_std twoRowDF 1 (by with_unfolding_all decide)
    (by with_unfolding_all decide) ⟨zero_le_one, by rw [hvar]; norm_num⟩ one_ne_zero

/-- Exact relation between the two variance conventions. -/
theorem popVarQ_eq_ratio_sampleVarQ (l : List ℚ) (hn : 2 ≤ l.length) :
    popVarQ l = (((l.length : ℚ) - 1) / (l.length : ℚ)) * sampleVarQ l := by
  have h2 : (2 : ℚ) ≤ (l.length : ℚ) := by exact_mod_cast hn
  have hn0 : (l.length : ℚ) ≠ 0 := by linarith
  have hn1 : (l.length : ℚ) - 1 ≠ 0 := by linarith
  unfold popVarQ sampleVarQ
  field_simp
  ring

/-- C4: the z-score divides by the population (`ddof=0`) standard deviation
while the `describe()` row reports the sample (`ddof=1`) standard deviation
(`describeColumn` records its square, `sampleVarQ`); the two are separately
parameterized computations, and on data with at least 2 values and nonzero
variance the population std differs from the reported sample std by exactly
the factor `sqrt((N-1)/N)` — in particular the two values are different. -/
theorem zscore_pop_vs_describe_sample_std (df : DataFrame) (σp σs : ℝ)
    (hn : 2 ≤ (dropNan (df.rows.map Record.price)).length)
    (hvar : popVarQ (dropNan (df.rows.map Record.price)) ≠ 0)
    (hp : IsPopStd (dropNan (df.rows.map Record.price)) σp)
    (hs : IsSampleStd (dropNan (df.rows.map Record.price)) σs) :
    (describeColumn (df.rows.map Record.price)).stdSq =
      sampleVarQ (dropNan (df.rows.map Record.price)) ∧
    σp = Real.sqrt ((((dropNan (df.rows.map Record.price)).length : ℝ) - 1) /
      ((dropNan (df.rows.map Record.price)).length : ℝ)) * σs ∧
    σp ≠ σs := by
  have h2 : (2 : ℝ) ≤ ((dropNan (df.rows.map Record.price)).length : ℝ) := by
    exact_mod_cast hn
  have hnr0 : (0 : ℝ) < ((dropNan (df.rows.map Record.price)).length : ℝ) := by
    linarith
  have hf0 : (0 : ℝ) ≤ (((dropNan (df.rows.map Record.price)).length : ℝ) - 1) /
      ((dropNan (df.rows.map Record.price)).length : ℝ) := by
    apply div_nonneg <;> linarith
  have hrel : ((popVarQ (dropNan (df.rows.map Record.price)) : ℚ) : ℝ) =
      ((((dropNan (df.rows.map Record.price)).length : ℝ) - 1) /
        ((dropNan (df.rows.map Record.price)).length : ℝ)) *
      ((sampleVarQ (dropNan (df.rows.map Record.price)) : ℚ) : ℝ) := by
    rw [popVarQ_eq_ratio_sampleVarQ _ hn]
    push_cast
    ring
  have hp2 : σp ^ 2 = ((((dropNan (df.rows.map Record.price)).length : ℝ) - 1) /
      ((dropNan (df.rows.map Record.price)).length : ℝ)) * σs ^ 2 := by
    rw [hp.2, hrel, hs.2]
  have hcast : ((popVarQ (dropNan (df.rows.map Record.price)) : ℚ) : ℝ) ≠ 0 :=
    Rat.cast_ne_zero.mpr hvar
  have hs2ne : σs ^ 2 ≠ 0 := by
    intro hx
    apply hcast
    rw [hrel, ← hs.2, hx, mul_zero]
  have hσs_pos : 0 < σs := lt_of_le_of_ne hs.1 (by
    intro hx
    exact hs2ne (by rw [← hx]; ring))
  have hmain : σp = Real.sqrt ((((dropNan (df.rows.map Record.price)).length : ℝ) - 1) /
      ((dropNan (df.rows.map Record.price)).length : ℝ)) * σs := by
    have h1 : σp = Real.sqrt (σp ^ 2) := (Real.sqrt_sq hp.1).symm
    rw [h1, hp2, Real.sqrt_mul hf0 (σs ^ 2), Real.sqrt_sq hs.1]
  refine ⟨rfl, hmain, ?_⟩
  intro heq
  have hflt : (((dropNan (df.rows.map Record.price)).length : ℝ) - 1) /
      ((dropNan (df.rows.map Record.price)).length : ℝ) < 1 := by
    rw [div_lt_one hnr0]
    linarith
  have hs2pos : 0 < σs ^ 2 := by positivity
  have : σp ^ 2 < σs ^ 2 := by
    rw [hp2]
    calc _ < 1 * σs ^ 2 := by
          exact mul_lt_mul_of_pos_right hflt hs2pos
      _ = σs ^ 2 := one_mul _
  rw [heq] at this
  exact lt_irrefl _ this

/-- C4 witness: on the two-row table with prices 0 and 2, the population std
is 1, the sample std is √2, and 1 = √(1/2)·√2 ≠ √2. -/
theorem zscore_pop_vs_describe_sample_std_witness :
    2 ≤ (dropNan (twoRowDF.rows.map Record.price)).length ∧
    popVarQ (dropNan (twoRowDF.rows.map Record.price)) ≠ 0 ∧
    ((describeColumn (twoRowDF.rows.map Record.price)).stdSq =
      sampleVarQ (dropNan (twoRowDF.rows.map Record.price)) ∧
    (1 : ℝ) = Real.sqrt ((((dropNan (twoRowDF.rows.map Record.price)).length : ℝ) - 1) /
      ((dropNan (twoRowDF.rows.map Record.price)).length : ℝ)) * Real.sqrt 2 ∧
    (1 : ℝ) ≠ Real.sqrt 2) := by
  have hvarp : popVarQ (dropNan (twoRowDF.rows.map Record.price)) = 1 := by
    with_unfolding_all decide
  have hvars : sampleVarQ (dropNan (twoRowDF.rows.map Record.price)) = 2 := by
    with_unfolding_all decide
  refine ⟨by with_unfolding_all decide, by with_unfolding_all decide, ?_⟩
  exact zscore_pop_vs_describe_sample_std twoRowDF 1 (Real.sqrt 2)
    (by with_unfolding_all decide)
    (by with_unfolding_all decide)
    ⟨zero_le_one, by rw [hvarp]; norm_num⟩
    ⟨Real.sqrt_nonneg 2, by rw [hvars, Real.sq_sqrt (by norm_num : (0:ℝ) ≤ 2)]; norm_num⟩

/-- Unfolding lemma for the square. -/
theorem sqQ_apply (x : ℚ) : sqQ x = x * x := rfl

/-- Summing a ℚ column shifted by a constant. -/
theorem sum_map_sub_constQ (L : List ℚ) (c : ℚ) :
    (L.map (fun x => x - c)).sum = L.sum - (L.length : ℚ) * c := by
  induction L with
  | nil => simp
  | cons a t ih =>
      simp only [List.map_cons, List.sum_cons, List.length_cons, ih]
      push_cast
      ring

/-- The centred ℚ column sums to zero. -/
theorem sum_map_sub_meanQ (L : List ℚ) (h : L ≠ []) :
    (L.map (fun x => x - meanQ L)).sum = 0 := by
  have hn : (L.length : ℚ) ≠ 0 := by
    exact_mod_cast Nat.pos_iff_ne_zero.mp (List.length_pos.mpr h)
  rw [sum_map_sub_constQ]
  unfold meanQ
  rw [mul_div_cancel₀ _ hn]
  ring

/-- Pointwise sums over a flattened list of groups. -/
theorem sum_map_flatten (gs : List (List ℚ)) (f : ℚ → ℚ) :
    (gs.flatten.map f).sum = (gs.map (fun g => (g.map f).sum)).sum := by
  induction gs with
  | nil => rfl
  | cons g t ih =>
      simp only [List.flatten_cons, List.map_append, List.sum_append,
        List.map_cons, List.sum_cons, ih]

/-- Sum of a pointwise sum of columns. -/
theorem sum_map_addQ {α : Type} (l : List α) (f g : α → ℚ) :
    (l.map (fun x => f x + g x)).sum = (l.map f).sum + (l.map g).sum := by
  induction l with
  | nil => simp
  | cons a t ih =>
      simp only [List.map_cons, List.sum_cons, ih]
      ring

/-- Expansion of a shifted sum of squares. -/
theorem sum_sq_shift (g : List ℚ) (c : ℚ) :
    (g.map (fun x => sqQ (x - c))).sum =
      (g.map sqQ).sum - 2 * c * g.sum + (g.length : ℚ) * sqQ c := by
  induction g with
  | nil => simp [sqQ]
  | cons a t ih =>
      simp only [List.map_cons, List.sum_cons, List.length_cons, ih]
      simp only [sqQ_apply]
      push_cast
      ring

/-- The parallel-axis step: the squared deviations of one group around the
grand mean decompose into its internal sum of squares plus its size times
the squared distance of its mean from the grand mean. -/
theorem sum_sq_around (g : List ℚ) (m : ℚ) (h : g ≠ []) :
    (g.map (fun x => sqQ (x - m))).sum =
      (g.map (fun x => sqQ (x - meanQ g))).sum +
        (g.length : ℚ) * sqQ (meanQ g - m) := by
  have hn : (g.length : ℚ) ≠ 0 := by
    exact_mod_cast Nat.pos_iff_ne_zero.mp (List.length_pos.mpr h)
  rw [sum_sq_shift g m, sum_sq_shift g (meanQ g)]
  simp only [sqQ_apply]
  unfold meanQ
  field_simp
  ring

/-- Non-empty groups make the concatenation at least as long as the list of
groups. -/
theorem length_le_flatten_length (gs : List (List ℚ))
    (hne : ∀ g ∈ gs, g ≠ []) : gs.length ≤ gs.flatten.length := by
  induction gs with
  | nil => simp
  | cons g t ih =>
      have hg : 0 < g.length :=
        List.length_pos.mpr (hne g (List.mem_cons_self g t))
      have ht := ih (fun x hx => hne x (List.mem_cons_of_mem g hx))
      simp only [List.length_cons, List.flatten_cons, List.length_append]
      omega

/-- A non-empty group list with non-empty groups flattens non-empty. -/
theorem flatten_ne_nil (gs : List (List ℚ)) (hgs : gs ≠ [])
    (hne : ∀ g ∈ gs, g ≠ []) : gs.flatten ≠ [] := by
  cases gs with
  | nil => exact absurd rfl hgs
  | cons g t =>
      have hg : g ≠ [] := hne g (List.mem_cons_self g t)
      simp only [List.flatten_cons]
      intro hx
      exact hg (List.append_eq_nil.mp hx).1

/-- scipy's between-group sum of squares (on shifted data, by the
square-of-sums shortcut) equals the specification's `Σ nᵢ (mᵢ - m)²`. -/
theorem ssbnF_eq_ssbSpec (gs : List (List ℚ)) (hgs : gs ≠ [])
    (hne : ∀ g ∈ gs, g ≠ []) : ssbnF gs = ssbSpec gs := by
  have hall : gs.flatten ≠ [] := flatten_ne_nil gs hgs hne
  have hzero : (alldataShifted gs).sum = 0 := sum_map_sub_meanQ _ hall
  have hterm : sqOfSum (alldataShifted gs) / (gs.flatten.length : ℚ) = 0 := by
    rw [sqOfSum, hzero]
    simp [sqQ]
  unfold ssbnF ssbSpec
  rw [hterm, sub_zero]
  unfold shiftedData
  rw [List.map_map]
  apply congrArg List.sum
  apply List.map_congr_left
  intro g hg
  have hgnn : g ≠ [] := hne g hg
  have hn : (g.length : ℚ) ≠ 0 := by
    exact_mod_cast Nat.pos_iff_ne_zero.mp (List.length_pos.mpr hgnn)
  simp only [Function.comp_apply, sqOfSum, List.length_map]
  rw [sum_map_sub_constQ]
  simp only [sqQ_apply]
  unfold meanQ
  field_simp
  ring

/-- scipy's within-group sum of squares `sstot - ssbn` equals the
specification's `Σᵢ Σ (x - mᵢ)²`. -/
theorem sswnF_eq_sswSpec (gs : List (List ℚ)) (hgs : gs ≠ [])
    (hne : ∀ g ∈ gs, g ≠ []) : sswnF gs = sswSpec gs := by
  have hall : gs.flatten ≠ [] := flatten_ne_nil gs hgs hne
  have hzero : (alldataShifted gs).sum = 0 := sum_map_sub_meanQ _ hall
  have hterm : sqOfSum (alldataShifted gs) / (gs.flatten.length : ℚ) = 0 := by
    rw [sqOfSum, hzero]
    simp [sqQ]
  have hsstot : sstotF gs = (gs.map (fun g =>
      (g.map (fun x => sqQ (x - meanQ gs.flatten))).sum)).sum := by
    unfold sstotF
    rw [hterm, sub_zero]
    unfold sumOfSq alldataShifted
    rw [List.map_map]
    exact sum_map_flatten gs _
  have hdecomp : sstotF gs = sswSpec gs + ssbSpec gs := by
    rw [hsstot]
    unfold sswSpec ssbSpec
    rw [← sum_map_addQ]
    apply congrArg List.sum
    apply List.map_congr_left
    intro g hg
    exact sum_sq_around g (meanQ gs.flatten) (hne g hg)
  unfold sswnF
  rw [hdecomp, ssbnF_eq_ssbSpec gs hgs hne]
  ring

/-- scipy's F statistic equals the specification's
`(SSB/(k-1)) / (SSW/(N-k))`. -/
theorem fOneWayF_eq_fSpec (gs : List (List ℚ)) (hk : 2 ≤ gs.length)
    (hne : ∀ g ∈ gs, g ≠ []) : fOneWayF gs = fSpec gs := by
  have hgs : gs ≠ [] := by
    intro hx
    rw [hx] at hk
    simp at hk
  have hkn : gs.length ≤ gs.flatten.length := length_le_flatten_length gs hne
  have hc1 : ((gs.length - 1 : ℕ) : ℚ) = (gs.length : ℚ) - 1 := by
    have h1 : 1 ≤ gs.length := by omega
    push_cast [Nat.cast_sub h1]
    ring
  have hc2 : ((gs.flatten.length - gs.length : ℕ) : ℚ) =
      (gs.flatten.length : ℚ) - (gs.length : ℚ) := by
    push_cast [Nat.cast_sub hkn]
    ring
  unfold fOneWayF fSpec
  rw [hc1, hc2, ssbnF_eq_ssbSpec gs hgs hne, sswnF_eq_sswSpec gs hgs hne]

/-- Running `f_oneway` on at least two non-empty samples returns the specification's
F statistic with degrees of freedom `(k-1, N-k)`. -/
theorem fOneWay_ok (gs : List (List ℚ)) (hk : 2 ≤ gs.length)
    (hne : ∀ g ∈ gs, g ≠ []) :
    fOneWay gs = Except.ok (fSpec gs, gs.length - 1,
      gs.flatten.length - gs.length) := by
  unfold fOneWay
  rw [if_neg (not_lt.mpr hk)]
  rw [fOneWayF_eq_fSpec gs hk hne]

/-- A non-missing value is in the NaN-stripped column. -/
theorem mem_dropNan_num {l : List PVal} {x : ℚ} (h : PVal.num x ∈ l) :
    x ∈ dropNan l := by
  unfold dropNan
  rw [List.mem_filterMap]
  exact ⟨PVal.num x, h, rfl⟩

/-- The group keys are exactly the non-missing `neighbourhood_group` values. -/
theorem mem_groupKeysSorted {rows : List Record} {g : String} :
    g ∈ groupKeysSorted rows ↔ ∃ r ∈ rows, r.neighbourhood_group = some g := by
  unfold groupKeysSorted
  rw [(List.perm_insertionSort _ _).mem_iff, List.mem_dedup, List.mem_filterMap]

/-- Every group produced by `groupby` is non-empty (given a NaN-free price
column). -/
theorem groupPrices_ne_nil {rows : List Record} {g : String}
    (hclean : ∀ r ∈ rows, r.price ≠ PVal.nan)
    (hg : ∃ r ∈ rows, r.neighbourhood_group = some g) :
    groupPrices rows g ≠ [] := by
  obtain ⟨r, hr, hng⟩ := hg
  have hfil : r ∈ rows.filter (fun x => x.neighbourhood_group == some g) :=
    List.mem_filter.mpr ⟨hr, by rw [hng]; simp⟩
  cases hp : r.price with
  | nan => exact absurd hp (hclean r hr)
  | num v =>
      have hv : PVal.num v ∈
          (rows.filter (fun x => x.neighbourhood_group == some g)).map Record.price :=
        List.mem_map.mpr ⟨r, hfil, hp⟩
      exact List.ne_nil_of_mem (mem_dropNan_num hv)

/-- C6: with fewer than 2 non-empty neighbourhood groups, `anova_test` fails
(scipy's "at least two inputs are required" `TypeError`, the specification's
`InsufficientGroupsError`); with at least 2 groups — all groups arising from
`groupby` are non-empty — it returns the F statistic of the standard one-way
sum-of-squares decomposition together with the degrees of freedom
`(k-1, N-k)` fed to the F distribution for the p-value. -/
theorem anova_test_spec (df : DataFrame)
    (hclean : ∀ r ∈ df.rows, r.price ≠ PVal.nan) :
    ((groupKeysSorted df.rows).length < 2 →
      anova_test df = Except.error PyError.atLeastTwoInputsRequired) ∧
    (2 ≤ (groupKeysSorted df.rows).length →
      anova_test df = Except.ok
        (fSpec ((groupKeysSorted df.rows).map (groupPrices df.rows)),
         (groupKeysSorted df.rows).length - 1,
         ((groupKeysSorted df.rows).map (groupPrices df.rows)).flatten.length -
           (groupKeysSorted df.rows).length)) := by
  have hlen : ((groupKeysSorted df.rows).map (groupPrices df.rows)).length =
      (groupKeysSorted df.rows).length := List.length_map _ _
  constructor
  · intro hlt
    unfold anova_test fOneWay
    rw [if_pos]
    rw [hlen]
    exact hlt
  · intro hge
    have hne : ∀ g ∈ (groupKeysSorted df.rows).map (groupPrices df.rows),
        g ≠ [] := by
      intro g hg
      obtain ⟨key, hkey, hkeyg⟩ := List.mem_map.mp hg
      rw [← hkeyg]
      exact groupPrices_ne_nil hclean (mem_groupKeysSorted.mp hkey)
    have hok := fOneWay_ok ((groupKeysSorted df.rows).map (groupPrices df.rows))
      (by rw [hlen]; exact hge) hne
    unfold anova_test
    rw [hok, hlen]

/-- C6 witness: the ANOVA theorem applied to the two-group scenario table. -/
theorem anova_test_spec_witness :
    (∀ r ∈ anovaDF.rows, r.price ≠ PVal.nan) ∧
    (((groupKeysSorted anovaDF.rows).length < 2 →
      anova_test anovaDF = Except.error PyError.atLeastTwoInputsRequired) ∧
    (2 ≤ (groupKeysSorted anovaDF.rows).length →
      anova_test anovaDF = Except.ok
        (fSpec ((groupKeysSorted anovaDF.rows).map (groupPrices anovaDF.rows)),
         (groupKeysSorted anovaDF.rows).length - 1,
         ((groupKeysSorted anovaDF.rows).map (groupPrices anovaDF.rows)).flatten.length -
           (groupKeysSorted anovaDF.rows).length))) :=
  ⟨by with_unfolding_all decide, anova_test_spec anovaDF (by with_unfolding_all decide)⟩
